import Mathlib
/-!
Shallow embedding of `unify_pdfs_by_feature.py` (feature-driven PDF grouping
and unification pipeline) and proofs about it.

Python's Unicode character-class tests (`str.isdigit`, `str.isalpha`,
`str.isalnum`) consult the external Unicode database, so they are modelled
as an abstract bundle of predicates `PyCharProps`; every theorem below is
proved for an arbitrary bundle, and witnesses instantiate it with the ASCII
classifiers.
-/

/-- Abstract model of Python's per-character class tests (`ch.isdigit()`,
`ch.isalpha()`, `ch.isalnum()`), which depend on the Unicode database. -/
structure PyCharProps where
  isdigit : Char → Bool
  isalpha : Char → Bool
  isalnum : Char → Bool

/-- Concrete ASCII instantiation of `PyCharProps`, agreeing with Python on
ASCII input (used by witnesses). -/
def asciiProps : PyCharProps :=
  { isdigit := Char.isDigit, isalpha := Char.isAlpha, isalnum := Char.isAlphanum }

/-- `apply_filter(s, mode)` (lines 119-126): keep only the characters of the
selected class; `"all"` (and any other mode string) returns `s` unchanged. -/
def apply_filter (cp : PyCharProps) (s : String) (mode : String) : String :=
  if mode = "digits" then (s.toList.filter cp.isdigit).asString
  else if mode = "letters" then (s.toList.filter cp.isalpha).asString
  else if mode = "alnum" then (s.toList.filter cp.isalnum).asString
  else s

/-- The indexing basis of `compute_feature` (line 130): the original stem when
`index_on == "original"`, otherwise the `index_filter`-filtered stem. -/
def indexing_basis (cp : PyCharProps) (name_stem : String)
    (index_on index_filter : String) : String :=
  if index_on = "original" then name_stem else apply_filter cp name_stem index_filter

/-- `base[i1 : i2 + 1]` with `i1 = p1 - 1`, `i2 = p2 - 1` (line 135): the
1-based inclusive character range `[p1..p2]` of `base`.  `parse_args`
(lines 82-85) guarantees `1 ≤ p1 ≤ p2`, so natural subtraction is faithful. -/
def feature_slice (base : String) (p1 p2 : Nat) : String :=
  ((base.toList.drop (p1 - 1)).take ((p2 - 1) + 1 - (p1 - 1))).asString

/-- `compute_feature` (lines 128-139).  The `IndexError` raised when the basis
is too short is modelled as `Except.error` with the same message. -/
def compute_feature (cp : PyCharProps) (name_stem : String) (p1 p2 : Nat)
    (index_on index_filter emit_scope : String) : Except String (String × String) :=
  let base := indexing_basis cp name_stem index_on index_filter
  let i2 := p2 - 1
  if base.length ≤ i2 then
    .error "Longitud insuficiente en la base de indexación para cubrir el rango [p1..p2]."
  else
    let slice_raw := feature_slice base p1 p2
    let feature := apply_filter cp slice_raw emit_scope
    .ok (if feature = "" then slice_raw else feature, base)

/-- The body of the character loop of `sanitize_feature` (lines 143-147):
alphanumeric characters, `'-'` and `'_'` are kept, everything else becomes
`'_'`. -/
def sanitize_feature_char (cp : PyCharProps) (ch : Char) : Char :=
  if cp.isalnum ch || ch = '-' || ch = '_' then ch else '_'

/-- `sanitize_feature` (lines 141-149): map every character through
`sanitize_feature_char` and fall back to `"feature"` when the result is
empty. -/
def sanitize_feature (cp : PyCharProps) (name : String) : String :=
  let out := (name.toList.map (sanitize_feature_char cp)).asString
  if out = "" then "feature" else out

/-- Python's string comparison: lexicographic by Unicode code point on the
character sequences (used by `sorted(source_paths)` in line 227). -/
def chars_le : List Char → List Char → Bool
  | [], _ => true
  | _ :: _, [] => false
  | a :: as, b :: bs => if a = b then chars_le as bs else decide (a.toNat < b.toNat)

/-- `a <= b` for Python strings. -/
def py_str_le (a b : String) : Bool :=
  chars_le a.toList b.toList

/-- The iteration order of `unify_group` over its sources (line 227):
`for src in sorted(source_paths)`. -/
def unify_merge_order (source_paths : List String) : List String :=
  source_paths.mergeSort py_str_le

/-- The page sequence of the output document built by `unify_group`
(lines 225-229): `insert_pdf` appends every page of each source, in merge
order.  `pages` abstracts the page list of the PDF stored at a path. -/
def unify_output_pages {Page : Type} (pages : String → List Page)
    (source_paths : List String) : List Page :=
  (unify_merge_order source_paths).flatMap pages

/-- `groups.setdefault(feat, []).append(f)` (line 341) on an
insertion-ordered association list (Python dict): append `v` to the entry
for `k`, creating the entry at the end if absent. -/
def setdefault_append (gs : List (String × List String)) (k : String) (v : String) :
    List (String × List String) :=
  match gs with
  | [] => [(k, [v])]
  | (k0, vs) :: rest =>
      if k0 = k then (k0, vs ++ [v]) :: rest
      else (k0, vs) :: setdefault_append rest k v

/-- The success/failure step of the scan loop (lines 334-341): on extractor
success append to the group of the returned key, on failure increment the
skip counter.  `extract f` stands for
`compute_feature(stem(f), p1, p2, index_on, index_filter, emit_scope)[0]`,
an arbitrary fixed extractor configuration applied to the path `f`. -/
def scan_step (extract : String → Except String String)
    (st : List (String × List String) × Nat) (f : String) :
    List (String × List String) × Nat :=
  match extract f with
  | .error _ => (st.1, st.2 + 1)
  | .ok feat => (setdefault_append st.1 feat f, st.2)

/-- The grouping pass of `main` (lines 331-342): fold the scan step over the
discovered documents starting from empty groups and a zero skip counter. -/
def scan_groups (extract : String → Except String String) (pdfs : List String) :
    List (String × List String) × Nat :=
  pdfs.foldl (scan_step extract) ([], 0)

/-- Total number of documents assigned to groups. -/
def group_sizes (gs : List (String × List String)) : Nat :=
  (gs.map (fun g => g.2.length)).sum

/-- Example extractor used by the C3 witness: fails on the path `"7"`,
assigns key `"A"` to everything else. -/
def scanExtractExample (f : String) : Except String String :=
  if f = "7" then Except.error "short" else Except.ok "A"

/-- One xref slot of the document's object table as seen by
`recompress_images_in_doc` (lines 155-214).  Each field records the outcome
of the corresponding external PyMuPDF call on this xref; `none` (or `false`
for the two `Bool` fields) models the call raising an exception:
`subtype` = `doc.xref_get_key(xref, "Subtype")[1]`,
`origStream` = the bytes of `doc.xref_stream(xref)`,
`pixN` = `fitz.Pixmap(doc, xref).n`,
`rgbOk` = success of the `fitz.Pixmap(fitz.csRGB, pix)` conversion,
`jpegBytes` = the bytes of `pix.tobytes("jpeg", quality=quality)` (the
`quality` argument is consumed by this external encoder),
`updateOk` = success of `doc.update_stream(xref, new_bytes)`. -/
structure ImgXref where
  subtype : Option String
  origStream : Option (List Nat)
  pixN : Option Nat
  rgbOk : Bool
  jpegBytes : Option (List Nat)
  updateOk : Bool
deriving DecidableEq

/-- The body of the per-xref loop of `recompress_images_in_doc`
(lines 165-212): returns whether `replaced` was incremented and, if so, the
new stream bytes.  Every `except: continue / pass` of the source is the
corresponding `(false, none)` (or fall-through) branch. -/
def process_xref (min_bytes : Nat) (only_if_smaller : Bool) (x : ImgXref) :
    Bool × Option (List Nat) :=
  match x.subtype with
  | none => (false, none)
  | some t =>
    if t ≠ "/Image" then (false, none)
    else match x.origStream with
      | none => (false, none)
      | some orig =>
        if orig.length < min_bytes then (false, none)
        else match x.pixN with
          | none => (false, none)
          | some n =>
            if 5 ≤ n ∧ x.rgbOk = false then (false, none)
            else match x.jpegBytes with
              | none => (false, none)
              | some new_bytes =>
                if only_if_smaller = false ∨ new_bytes.length < orig.length then
                  (if x.updateOk then (true, some new_bytes) else (false, none))
                else (false, none)

/-- The stream stored at an xref after the loop body ran on it: the new
JPEG bytes when the stream was replaced, the original stream otherwise. -/
def xref_final (min_bytes : Nat) (only_if_smaller : Bool) (x : ImgXref) :
    Option (List Nat) :=
  if (process_xref min_bytes only_if_smaller x).1
  then (process_xref min_bytes only_if_smaller x).2
  else x.origStream

/-- `recompress_images_in_doc` (lines 155-214): fold the per-xref body over
the object table, accumulating the `replaced` counter (the return value)
and the resulting per-xref streams (the document state). -/
def recompress_images_in_doc (quality min_kb : Nat) (only_if_smaller : Bool)
    (xrefs : List ImgXref) : Nat × List (Option (List Nat)) :=
  let min_bytes := min_kb * 1024
  xrefs.foldl
    (fun st x =>
      let r := process_xref min_bytes only_if_smaller x
      (st.1 + (if r.1 then 1 else 0), st.2 ++ [if r.1 then r.2 else x.origStream]))
    (0, [])

/-- A failure at one of the per-image steps of the loop body of
`recompress_images_in_doc`: reading the `Subtype` key (line 167), reading
the stream (line 175), building the pixmap (line 183), converting a
`n >= 5` pixmap to RGB (line 190), JPEG encoding (line 196), or replacing
the stream (line 203).  Each external call's failure is modelled by the
corresponding oracle field (`none` / `false`). -/
def image_step_fails (x : ImgXref) : Prop :=
  x.subtype = none
  ∨ x.origStream = none
  ∨ x.pixN = none
  ∨ (∃ n, x.pixN = some n ∧ 5 ≤ n ∧ x.rgbOk = false)
  ∨ x.jpegBytes = none
  ∨ x.updateOk = false

/-- Python's `str.isspace` character class (the characters removed by
`resp = input().strip()`, line 352): ASCII whitespace, the C1 separators,
and the Unicode space separators. -/
def py_isspace (c : Char) : Bool :=
  decide ((9 ≤ c.toNat ∧ c.toNat ≤ 13) ∨ (28 ≤ c.toNat ∧ c.toNat ≤ 32)
    ∨ c.toNat = 133 ∨ c.toNat = 160 ∨ c.toNat = 0x1680
    ∨ (0x2000 ≤ c.toNat ∧ c.toNat ≤ 0x200a) ∨ c.toNat = 0x2028 ∨ c.toNat = 0x2029
    ∨ c.toNat = 0x202f ∨ c.toNat = 0x205f ∨ c.toNat = 0x3000)

/-- `resp.strip()` (line 352): drop leading and trailing whitespace. -/
def py_strip (s : String) : String :=
  (((s.toList.dropWhile py_isspace).reverse.dropWhile py_isspace).reverse).asString

/-- `resp.lower()` (line 353).  `Char.toLower` lowers exactly the ASCII
range `A`-`Z`, which is faithful for the comparisons against `"s"` and
`"y"` made here. -/
def py_lower (s : String) : String :=
  (s.toList.map Char.toLower).asString

/-- Observable outcome of `main` after the plan is printed (lines 351-363):
whether the process exited at the confirmation gate (`sys.exit(0)`),
whether `os.makedirs(out_dir, ...)` ran, and whether stage 2 (the merge
jobs) ran. -/
structure PostPlanOutcome where
  exitCode : Option Nat
  outDirCreated : Bool
  mergeJobsRun : Bool
deriving DecidableEq

/-- Lines 351-363 of `main`: read the response, strip it, and cancel with
`sys.exit(0)` — before the output directory is created and before any job
is submitted — unless the lowercased form is `"s"` or `"y"`. -/
def post_plan_run (resp : String) : PostPlanOutcome :=
  let r := py_strip resp
  if ¬(py_lower r = "s" ∨ py_lower r = "y") then
    { exitCode := some 0, outDirCreated := false, mergeJobsRun := false }
  else
    { exitCode := none, outDirCreated := true, mergeJobsRun := true }

/-- The destination path built by `worker_unify` (lines 285-286):
`os.path.join(out_dir, f"{safe_feat}.pdf")` with the sanitized feature key
(POSIX join; `out_dir` carries no trailing separator in `main`). -/
def worker_dest_path (cp : PyCharProps) (out_dir feat : String) : String :=
  out_dir ++ "/" ++ sanitize_feature cp feat ++ ".pdf"

/-- `worker_unify` (lines 282-296).  `unify` abstracts the effectful
`unify_group` call; `Except.error e` models `unify_group` raising an
exception with message `e`, caught by the worker's `try/except`.
Sanitization and path construction, also inside the `try`, are total pure
functions of the embedding. -/
def worker_unify (unify : String → List String → Except String Unit)
    (cp : PyCharProps) (out_dir feat : String) (paths : List String) :
    String × Nat × String :=
  match unify (worker_dest_path cp out_dir feat) paths with
  | .ok _ => (feat, paths.length, "OK")
  | .error e => (feat, paths.length, "ERROR: " ++ e)

/-- The tag printed for a finished group by the serial loop of `main`
(lines 365-378): the loop calls `worker_unify` and discards its returned
JobResult, then prints `"[OK] ..."`; the `except` branch (which would
print `"[WARN] ..."`) is unreachable because `worker_unify` catches every
exception and returns normally (see `worker_unify_never_raises`). -/
def serial_report_tag (result : String × Nat × String) : String :=
  match result with
  | _ => "OK"

/-- The tag printed for a finished group by the parallel loop of `main`
(lines 392-399): `"WARN"` when the JobResult status is not `"OK"`,
otherwise `"OK"`. -/
def parallel_report_tag (result : String × Nat × String) : String :=
  if result.2.2 ≠ "OK" then "WARN" else "OK"

/-- C2: `compute_feature` signals the indexing error exactly when the
indexing basis is shorter than `p2` (for the validated range `1 ≤ p1 ≤ p2`
enforced by `parse_args`). -/
theorem compute_feature_index_error_iff (cp : PyCharProps) (name_stem : String)
    (p1 p2 : Nat) (index_on index_filter emit_scope : String)
    (hp1 : 1 ≤ p1) (hp12 : p1 ≤ p2) :
    (∃ msg, compute_feature cp name_stem p1 p2 index_on index_filter emit_scope
        = Except.error msg)
      ↔ (indexing_basis cp name_stem index_on index_filter).length < p2 := by
  unfold compute_feature
  by_cases h : (indexing_basis cp name_stem index_on index_filter).length ≤ p2 - 1
  · simp only [h, if_pos]
    constructor
    · intro _; omega
    · intro _; exact ⟨_, rfl⟩
  · simp only [h, if_neg, not_false_eq_true]
    constructor
    · rintro ⟨msg, hmsg⟩; cases hmsg
    · intro hlt; omega

/-- C2 witness: the stem `"7"` with `p1 = 1`, `p2 = 2` and the `original`
basis signals the indexing error (basis length `1 < 2`). -/
theorem compute_feature_index_error_iff_witness :
    ∃ msg, compute_feature asciiProps "7" 1 2 "original" "digits" "all"
      = Except.error msg :=
  (compute_feature_index_error_iff asciiProps "7" 1 2 "original" "digits" "all"
    (by decide) (by decide)).mpr (by decide)

/-- C9: when the basis covers the range (`p2 ≤` basis length, `1 ≤ p1 ≤ p2`),
`compute_feature` succeeds with a non-empty key: the emit-scope-filtered
slice when that is non-empty, otherwise the raw slice, whose length is
`p2 - p1 + 1 ≥ 1`. -/
theorem compute_feature_in_range_nonempty (cp : PyCharProps) (name_stem : String)
    (p1 p2 : Nat) (index_on index_filter emit_scope : String)
    (hp1 : 1 ≤ p1) (hp12 : p1 ≤ p2)
    (hlen : p2 ≤ (indexing_basis cp name_stem index_on index_filter).length) :
    ∃ key,
      compute_feature cp name_stem p1 p2 index_on index_filter emit_scope
        = Except.ok (key, indexing_basis cp name_stem index_on index_filter)
      ∧ key ≠ ""
      ∧ (feature_slice (indexing_basis cp name_stem index_on index_filter) p1 p2).length
          = p2 - p1 + 1
      ∧ key = (if apply_filter cp
                  (feature_slice (indexing_basis cp name_stem index_on index_filter) p1 p2)
                  emit_scope = ""
               then feature_slice (indexing_basis cp name_stem index_on index_filter) p1 p2
               else apply_filter cp
                  (feature_slice (indexing_basis cp name_stem index_on index_filter) p1 p2)
                  emit_scope) := by
  set base := indexing_basis cp name_stem index_on index_filter with hbase
  have hnot : ¬ base.length ≤ p2 - 1 := by omega
  have hslice_len : (feature_slice base p1 p2).length = p2 - p1 + 1 := by
    show ((base.toList.drop (p1 - 1)).take ((p2 - 1) + 1 - (p1 - 1))).length = p2 - p1 + 1
    rw [List.length_take, List.length_drop]
    have : base.toList.length = base.length := by
      cases base; rfl
    omega
  refine ⟨_, ?_, ?_, hslice_len, rfl⟩
  · unfold compute_feature
    simp only [← hbase, hnot, if_neg, not_false_eq_true]
  · by_cases hf : apply_filter cp (feature_slice base p1 p2) emit_scope = ""
    · simp only [hf, if_pos]
      intro hempty
      rw [hempty] at hslice_len
      simp at hslice_len
    · simp only [hf, if_neg, not_false_eq_true]
      exact hf

/-- C9 witness: stem `"a1"` with `p1 = 1`, `p2 = 2`, original basis and
`digits` emit scope: the filtered slice is `"1"`, non-empty key `"1"`. -/
theorem compute_feature_in_range_nonempty_witness :
    ∃ key, compute_feature asciiProps "a1" 1 2 "original" "digits" "digits"
        = Except.ok (key, indexing_basis asciiProps "a1" "original" "digits")
      ∧ key ≠ "" :=
  match compute_feature_in_range_nonempty asciiProps "a1" 1 2 "original" "digits" "digits"
    (by decide) (by decide) (by decide) with
  | ⟨key, h1, h2, _, _⟩ => ⟨key, h1, h2⟩

/-- The boolean keep-test of `sanitize_feature` as a proposition. -/
theorem sanitize_class_bool (cp : PyCharProps) (ch : Char) :
    (cp.isalnum ch || ch = '-' || ch = '_') = true
      ↔ (cp.isalnum ch = true ∨ ch = '-' ∨ ch = '_') := by
  simp [Bool.or_eq_true, decide_eq_true_eq, or_assoc]

/-- C10: `sanitize_feature` maps kept-class characters to themselves and
every other character to `'_'`; on non-empty input the output is the
character-wise image (same length, only alphanumeric/`'-'`/`'_'`
characters); the mapped string is empty exactly when the input is, and then
the placeholder `"feature"` is returned. -/
theorem sanitize_feature_spec (cp : PyCharProps) (name : String) :
    ((name.toList.map (sanitize_feature_char cp)).asString = "" ↔ name = "")
  ∧ (name = "" → sanitize_feature cp name = "feature")
  ∧ (name ≠ "" →
      sanitize_feature cp name = (name.toList.map (sanitize_feature_char cp)).asString
      ∧ (sanitize_feature cp name).length = name.length
      ∧ ∀ ch ∈ (sanitize_feature cp name).toList,
          cp.isalnum ch = true ∨ ch = '-' ∨ ch = '_')
  ∧ (∀ ch, (cp.isalnum ch = true ∨ ch = '-' ∨ ch = '_') → sanitize_feature_char cp ch = ch)
  ∧ (∀ ch, ¬(cp.isalnum ch = true ∨ ch = '-' ∨ ch = '_') → sanitize_feature_char cp ch = '_') := by
  have hempty : (name.toList.map (sanitize_feature_char cp)).asString = "" ↔ name = "" := by
    constructor
    · intro h
      have hdata : name.toList.map (sanitize_feature_char cp) = [] :=
        congrArg String.data h
      have hnil : name.toList = [] := List.map_eq_nil_iff.mp hdata
      cases name with
      | mk data =>
        cases data with
        | nil => rfl
        | cons c cs => simp [String.toList] at hnil
    · intro h; subst h; rfl
  refine ⟨hempty, ?_, ?_, ?_, ?_⟩
  · intro h; subst h; rfl
  · intro hne
    have hout : (name.toList.map (sanitize_feature_char cp)).asString ≠ "" := by
      intro h; exact hne (hempty.mp h)
    have hdef : sanitize_feature cp name
        = (name.toList.map (sanitize_feature_char cp)).asString := by
      unfold sanitize_feature
      simp only [hout, if_neg, not_false_eq_true]
    refine ⟨hdef, ?_, ?_⟩
    · rw [hdef]
      show (name.toList.map (sanitize_feature_char cp)).length = name.length
      cases name; simp [String.toList, String.length]
    · intro ch hch
      rw [hdef] at hch
      have : ch ∈ name.toList.map (sanitize_feature_char cp) := hch
      rcases List.mem_map.mp this with ⟨c, _, hc⟩
      unfold sanitize_feature_char at hc
      by_cases hk : (cp.isalnum c || c = '-' || c = '_') = true
      · rw [if_pos hk] at hc
        subst hc
        exact (sanitize_class_bool cp c).mp hk
      · rw [if_neg hk] at hc
        right; right; exact hc.symm
  · intro ch h
    unfold sanitize_feature_char
    rw [if_pos ((sanitize_class_bool cp ch).mpr h)]
  · intro ch h
    unfold sanitize_feature_char
    rw [if_neg (fun hk => h ((sanitize_class_bool cp ch).mp hk))]

/-- C10 witness: `sanitize_feature` on the non-empty input `"a b!"` is its
character-wise sanitization `"a_b_"`. -/
theorem sanitize_feature_spec_witness :
    sanitize_feature asciiProps "a b!" = "a_b_" := by
  have h := (sanitize_feature_spec asciiProps "a b!").2.2.1 (by decide)
  exact h.1.trans (by decide)

theorem char_toNat_inj {a b : Char} (h : a.toNat = b.toNat) : a = b := by
  apply Char.ext
  exact UInt32.toNat.inj h

theorem chars_le_total : ∀ a b : List Char, chars_le a b = true ∨ chars_le b a = true
  | [], _ => Or.inl rfl
  | _ :: _, [] => Or.inr rfl
  | x :: xs, y :: ys => by
    by_cases hxy : x = y
    · subst hxy
      simp only [chars_le, if_pos rfl]
      exact chars_le_total xs ys
    · have hne : x.toNat ≠ y.toNat := fun h => hxy (char_toNat_inj h)
      simp only [chars_le, if_neg hxy, if_neg (Ne.symm hxy)]
      rcases Nat.lt_or_ge x.toNat y.toNat with h | h
      · exact Or.inl (by simpa using h)
      · exact Or.inr (by simpa using lt_of_le_of_ne h (Ne.symm hne))

theorem chars_le_trans : ∀ a b c : List Char,
    chars_le a b = true → chars_le b c = true → chars_le a c = true
  | [], _, _ => fun _ _ => rfl
  | _ :: _, [], _ => fun h _ => by cases h
  | _ :: _, _ :: _, [] => fun _ h => by cases h
  | x :: xs, y :: ys, z :: zs => fun h1 h2 => by
    by_cases hxy : x = y <;> by_cases hyz : y = z
    · subst hxy; subst hyz
      simp only [chars_le, if_pos rfl] at h1 h2 ⊢
      exact chars_le_trans xs ys zs h1 h2
    · subst hxy
      simpa [chars_le, hyz] using h2
    · subst hyz
      simpa [chars_le, hxy] using h1
    · simp only [chars_le, if_neg hxy, decide_eq_true_eq] at h1
      simp only [chars_le, if_neg hyz, decide_eq_true_eq] at h2
      have hxz : x.toNat < z.toNat := Nat.lt_trans h1 h2
      have hne : x ≠ z := fun h => by subst h; omega
      simp [chars_le, if_neg hne, hxz]

theorem chars_le_antisymm : ∀ a b : List Char,
    chars_le a b = true → chars_le b a = true → a = b
  | [], [] => fun _ _ => rfl
  | [], _ :: _ => fun _ h => by cases h
  | _ :: _, [] => fun h _ => by cases h
  | x :: xs, y :: ys => fun h1 h2 => by
    by_cases hxy : x = y
    · subst hxy
      simp only [chars_le, if_pos rfl] at h1 h2
      rw [chars_le_antisymm xs ys h1 h2]
    · simp only [chars_le, if_neg hxy, decide_eq_true_eq] at h1
      simp only [chars_le, if_neg (Ne.symm hxy), decide_eq_true_eq] at h2
      omega

theorem string_toList_inj {a b : String} (h : a.toList = b.toList) : a = b := by
  cases a; cases b
  exact congrArg String.mk h

theorem py_str_le_total (a b : String) : (py_str_le a b || py_str_le b a) = true := by
  rcases chars_le_total a.toList b.toList with h | h
  · have h' : py_str_le a b = true := h
    rw [h', Bool.true_or]
  · have h' : py_str_le b a = true := h
    rw [h', Bool.or_true]

theorem py_str_le_trans (a b c : String)
    (h1 : py_str_le a b = true) (h2 : py_str_le b c = true) : py_str_le a c = true :=
  chars_le_trans a.toList b.toList c.toList h1 h2

theorem py_str_le_antisymm (a b : String)
    (h1 : py_str_le a b = true) (h2 : py_str_le b a = true) : a = b :=
  string_toList_inj (chars_le_antisymm a.toList b.toList h1 h2)

/-- C1: `unify_group` merges the sources in lexicographically sorted order
of their paths, and for any two permutation-equivalent input lists the
merge order — hence the output page sequence — is identical. -/
theorem unify_group_merge_order_spec {Page : Type} (pages : String → List Page)
    (l1 l2 : List String) (hperm : l1.Perm l2) :
    List.Pairwise (fun a b => py_str_le a b = true) (unify_merge_order l1)
  ∧ (unify_merge_order l1).Perm l1
  ∧ unify_merge_order l1 = unify_merge_order l2
  ∧ unify_output_pages pages l1 = unify_output_pages pages l2 := by
  have hsorted1 := List.sorted_mergeSort py_str_le_trans py_str_le_total l1
  have hsorted2 := List.sorted_mergeSort py_str_le_trans py_str_le_total l2
  haveI : IsAntisymm String (fun a b => py_str_le a b = true) := ⟨py_str_le_antisymm⟩
  have hp : (l1.mergeSort py_str_le).Perm (l2.mergeSort py_str_le) :=
    ((List.mergeSort_perm l1 py_str_le).trans hperm).trans
      (List.mergeSort_perm l2 py_str_le).symm
  have heq : l1.mergeSort py_str_le = l2.mergeSort py_str_le :=
    List.eq_of_perm_of_sorted hp hsorted1 hsorted2
  refine ⟨hsorted1, List.mergeSort_perm l1 py_str_le, heq, ?_⟩
  unfold unify_output_pages unify_merge_order
  rw [heq]

/-- C1 witness: the shuffled discovery orders `["b", "a"]` and `["a", "b"]`
produce the same merge order and page sequence. -/
theorem unify_group_merge_order_spec_witness :
    unify_merge_order ["b", "a"] = unify_merge_order ["a", "b"]
  ∧ unify_output_pages (fun s => [s]) ["b", "a"]
      = unify_output_pages (fun s => [s]) ["a", "b"] :=
  ⟨(unify_group_merge_order_spec (fun s => [s]) ["b", "a"] ["a", "b"] (by decide)).2.2.1,
   (unify_group_merge_order_spec (fun s => [s]) ["b", "a"] ["a", "b"] (by decide)).2.2.2⟩

theorem group_sizes_setdefault_append (gs : List (String × List String))
    (k v : String) : group_sizes (setdefault_append gs k v) = group_sizes gs + 1 := by
  induction gs with
  | nil => simp [setdefault_append, group_sizes]
  | cons hd tl ih =>
    obtain ⟨k0, vs⟩ := hd
    by_cases h : k0 = k
    · simp [setdefault_append, h, group_sizes]
      omega
    · simp only [setdefault_append, h, if_neg, not_false_eq_true, group_sizes,
        List.map_cons, List.sum_cons] at ih ⊢
      omega

theorem mem_setdefault_append (gs : List (String × List String)) (k0 v0 k : String)
    (vs : List String) (v : String)
    (hmem : (k, vs) ∈ setdefault_append gs k0 v0) (hv : v ∈ vs) :
    (∃ vs', (k, vs') ∈ gs ∧ v ∈ vs') ∨ (k = k0 ∧ v = v0) := by
  induction gs with
  | nil =>
    simp only [setdefault_append, List.mem_singleton] at hmem
    obtain ⟨hk, hvs⟩ := Prod.mk.injEq .. ▸ hmem
    subst hk; subst hvs
    right
    exact ⟨rfl, by simpa using hv⟩
  | cons hd tl ih =>
    obtain ⟨k1, vs1⟩ := hd
    by_cases h : k1 = k0
    · rw [setdefault_append, if_pos h] at hmem
      rcases List.mem_cons.mp hmem with heq | htl
      · obtain ⟨hk, hvs⟩ := Prod.mk.injEq .. ▸ heq
        subst hk; subst hvs
        rcases List.mem_append.mp hv with h1 | h1
        · exact Or.inl ⟨vs1, List.mem_cons_self .., h1⟩
        · right
          exact ⟨h.symm ▸ rfl, by simpa using h1⟩
      · exact Or.inl ⟨vs, List.mem_cons_of_mem _ htl, hv⟩
    · rw [setdefault_append, if_neg h] at hmem
      rcases List.mem_cons.mp hmem with heq | htl
      · obtain ⟨hk, hvs⟩ := Prod.mk.injEq .. ▸ heq
        subst hk; subst hvs
        exact Or.inl ⟨vs, List.mem_cons_self .., hv⟩
      · rcases ih htl with h1 | h1
        · obtain ⟨vs', hvs', hv'⟩ := h1
          exact Or.inl ⟨vs', List.mem_cons_of_mem _ hvs', hv'⟩
        · exact Or.inr h1

theorem fst_mem_setdefault_append (gs : List (String × List String)) (k0 v0 x : String)
    (hx : x ∈ (setdefault_append gs k0 v0).map Prod.fst) :
    x ∈ gs.map Prod.fst ∨ x = k0 := by
  induction gs with
  | nil => simpa [setdefault_append] using hx
  | cons hd tl ih =>
    obtain ⟨k1, vs1⟩ := hd
    by_cases h : k1 = k0
    · rw [setdefault_append, if_pos h, List.map_cons] at hx
      rcases List.mem_cons.mp hx with heq | htl
      · exact Or.inl (by rw [List.map_cons]; exact List.mem_cons.mpr (Or.inl heq))
      · exact Or.inl (by rw [List.map_cons]; exact List.mem_cons.mpr (Or.inr htl))
    · rw [setdefault_append, if_neg h, List.map_cons] at hx
      rcases List.mem_cons.mp hx with heq | htl
      · exact Or.inl (by rw [List.map_cons]; exact List.mem_cons.mpr (Or.inl heq))
      · rcases ih htl with h1 | h1
        · exact Or.inl (by rw [List.map_cons]; exact List.mem_cons.mpr (Or.inr h1))
        · exact Or.inr h1

theorem nodup_setdefault_append (gs : List (String × List String)) (k0 v0 : String)
    (hnd : (gs.map Prod.fst).Nodup) :
    ((setdefault_append gs k0 v0).map Prod.fst).Nodup := by
  induction gs with
  | nil => simp [setdefault_append]
  | cons hd tl ih =>
    obtain ⟨k1, vs1⟩ := hd
    rw [List.map_cons, List.nodup_cons] at hnd
    by_cases h : k1 = k0
    · rw [setdefault_append, if_pos h]
      rw [List.map_cons, List.nodup_cons]
      exact hnd
    · rw [setdefault_append, if_neg h]
      rw [List.map_cons, List.nodup_cons]
      refine ⟨?_, ih hnd.2⟩
      intro hcontra
      rcases fst_mem_setdefault_append tl k0 v0 k1 hcontra with h1 | h1
      · exact hnd.1 h1
      · exact h h1

/-- Invariant of the scan loop (lines 331-342), for an arbitrary starting
accumulator: each document adds one either to some group or to the skip
counter; the skip counter counts exactly the extraction failures; key
uniqueness is preserved; and every path stored in a group comes from the
accumulator or was scanned successfully with that group's key. -/
theorem scan_groups_loop_inv (extract : String → Except String String)
    (pdfs : List String) :
    ∀ acc : List (String × List String) × Nat,
      (group_sizes (pdfs.foldl (scan_step extract) acc).1
          + (pdfs.foldl (scan_step extract) acc).2
        = group_sizes acc.1 + acc.2 + pdfs.length)
    ∧ ((pdfs.foldl (scan_step extract) acc).2
        = acc.2 + pdfs.countP (fun f => !(extract f).isOk))
    ∧ ((acc.1.map Prod.fst).Nodup →
        (((pdfs.foldl (scan_step extract) acc).1).map Prod.fst).Nodup)
    ∧ (∀ k vs v, (k, vs) ∈ (pdfs.foldl (scan_step extract) acc).1 → v ∈ vs →
        (∃ vs', (k, vs') ∈ acc.1 ∧ v ∈ vs') ∨ (v ∈ pdfs ∧ extract v = .ok k)) := by
  induction pdfs with
  | nil =>
    intro acc
    refine ⟨by simp, by simp, fun h => h, ?_⟩
    intro k vs v hmem hv
    exact Or.inl ⟨vs, hmem, hv⟩
  | cons f rest ih =>
    intro acc
    rw [List.foldl_cons]
    obtain ⟨ih1, ih2, ih3, ih4⟩ := ih (scan_step extract acc f)
    rcases hext : extract f with e | feat
    · have hstep : scan_step extract acc f = (acc.1, acc.2 + 1) := by
        simp [scan_step, hext]
      rw [hstep] at ih1 ih2 ih3 ih4 ⊢
      refine ⟨by rw [ih1]; simp; omega, ?_, ih3, ?_⟩
      · have hone : (if (fun g => !(extract g).isOk) f then 1 else 0) = 1 := by
          show (if (!(extract f).isOk) = true then 1 else 0) = 1
          rw [hext]; rfl
        rw [ih2, List.countP_cons, hone]
        simp
        omega
      · intro k vs v hmem hv
        rcases ih4 k vs v hmem hv with h | h
        · exact Or.inl h
        · exact Or.inr ⟨List.mem_cons_of_mem _ h.1, h.2⟩
    · have hstep : scan_step extract acc f = (setdefault_append acc.1 feat f, acc.2) := by
        simp [scan_step, hext]
      rw [hstep] at ih1 ih2 ih3 ih4 ⊢
      refine ⟨?_, ?_, ?_, ?_⟩
      · rw [ih1, group_sizes_setdefault_append]
        simp
        omega
      · have hzero : (if (fun g => !(extract g).isOk) f then 1 else 0) = 0 := by
          show (if (!(extract f).isOk) = true then 1 else 0) = 0
          rw [hext]; rfl
        rw [ih2, List.countP_cons, hzero]
        simp
      · intro hnd
        exact ih3 (nodup_setdefault_append acc.1 feat f hnd)
      · intro k vs v hmem hv
        rcases ih4 k vs v hmem hv with ⟨vs', hvs', hv'⟩ | h
        · rcases mem_setdefault_append acc.1 feat f k vs' v hvs' hv' with h1 | ⟨hk, hvf⟩
          · exact Or.inl h1
          · subst hk; subst hvf
            exact Or.inr ⟨List.mem_cons_self .., hext⟩
        · exact Or.inr ⟨List.mem_cons_of_mem _ h.1, h.2⟩

/-- C3: the grouping pass of `main` partitions the discovered documents:
the group sizes and the skip counter sum to the number of documents, the
skip counter counts exactly the extraction failures, group keys are
pairwise distinct, and every path stored in a group was scanned there
successfully with exactly that group's key (in particular a document whose
extraction fails appears in no group). -/
theorem scan_groups_partition (extract : String → Except String String)
    (pdfs : List String) :
    (group_sizes (scan_groups extract pdfs).1 + (scan_groups extract pdfs).2
        = pdfs.length)
  ∧ ((scan_groups extract pdfs).2 = pdfs.countP (fun f => !(extract f).isOk))
  ∧ (((scan_groups extract pdfs).1).map Prod.fst).Nodup
  ∧ (∀ k vs v, (k, vs) ∈ (scan_groups extract pdfs).1 → v ∈ vs →
      v ∈ pdfs ∧ extract v = .ok k) := by
  obtain ⟨h1, h2, h3, h4⟩ := scan_groups_loop_inv extract pdfs ([], 0)
  refine ⟨by simpa [group_sizes] using h1, by simpa using h2, h3 (by simp), ?_⟩
  intro k vs v hmem hv
  rcases h4 k vs v hmem hv with ⟨vs', hvs', _⟩ | h
  · simp at hvs'
  · exact h

/-- C3 witness: on the concrete scan of `["A1", "A2", "7"]` the grouped
path `"A1"` was discovered and extracted to its group's key. -/
theorem scan_groups_partition_witness :
    "A1" ∈ (["A1", "A2", "7"] : List String)
      ∧ scanExtractExample "A1" = Except.ok "A" :=
  (scan_groups_partition scanExtractExample ["A1", "A2", "7"]).2.2.2
    "A" ["A1", "A2"] "A1" (by decide) (by decide)

theorem recompress_fold_aux (mb : Nat) (ois : Bool) :
    ∀ (xs : List ImgXref) (c : Nat) (fs : List (Option (List Nat))),
      xs.foldl
        (fun st x =>
          let r := process_xref mb ois x
          (st.1 + (if r.1 then 1 else 0), st.2 ++ [if r.1 then r.2 else x.origStream]))
        (c, fs)
      = (c + xs.countP (fun x => (process_xref mb ois x).1),
         fs ++ xs.map (xref_final mb ois))
  | [], c, fs => by simp
  | x :: xs, c, fs => by
    rw [List.foldl_cons, recompress_fold_aux mb ois xs]
    have hfin : (if (process_xref mb ois x).1 then (process_xref mb ois x).2
        else x.origStream) = xref_final mb ois x := rfl
    rw [List.countP_cons]
    refine Prod.ext ?_ ?_
    · show c + (if (process_xref mb ois x).1 then 1 else 0)
          + xs.countP (fun x => (process_xref mb ois x).1)
        = c + (xs.countP (fun x => (process_xref mb ois x).1)
          + if (fun x => (process_xref mb ois x).1) x then 1 else 0)
      have hbeta : (if (fun x => (process_xref mb ois x).1) x then 1 else 0)
          = (if (process_xref mb ois x).1 then 1 else 0) := rfl
      rw [hbeta]
      omega
    · show fs ++ [if (process_xref mb ois x).1 then (process_xref mb ois x).2
          else x.origStream] ++ xs.map (xref_final mb ois)
        = fs ++ (x :: xs).map (xref_final mb ois)
      rw [hfin, List.map_cons, List.append_assoc]
      rfl

/-- The loop in closed form: the replaced counter counts the xrefs whose
stream was replaced, and the resulting streams are the element-wise
`xref_final`. -/
theorem recompress_images_in_doc_eq (quality min_kb : Nat) (ois : Bool)
    (xrefs : List ImgXref) :
    recompress_images_in_doc quality min_kb ois xrefs
      = (xrefs.countP (fun x => (process_xref (min_kb * 1024) ois x).1),
         xrefs.map (xref_final (min_kb * 1024) ois)) := by
  unfold recompress_images_in_doc
  rw [recompress_fold_aux]
  simp

/-- Inversion of the loop body: if the `replaced` counter was incremented
for an xref then every step succeeded, the subtype was `/Image`, the
original stream met the size threshold, and the smaller-than-original
policy (if enabled) held for the new bytes. -/
theorem process_xref_replaced_inv (mb : Nat) (ois : Bool) (x : ImgXref)
    (h : (process_xref mb ois x).1 = true) :
    ∃ orig n nb, x.subtype = some "/Image" ∧ x.origStream = some orig
      ∧ mb ≤ orig.length ∧ x.pixN = some n ∧ ¬(5 ≤ n ∧ x.rgbOk = false)
      ∧ x.jpegBytes = some nb ∧ (ois = false ∨ nb.length < orig.length)
      ∧ x.updateOk = true ∧ process_xref mb ois x = (true, some nb) := by
  unfold process_xref at h
  split at h
  · simp at h
  · rename_i t heq
    split at h
    · simp at h
    · rename_i ht
      split at h
      · simp at h
      · rename_i orig horig
        split at h
        · simp at h
        · rename_i hth
          split at h
          · simp at h
          · rename_i n hpn
            split at h
            · simp at h
            · rename_i hcv
              split at h
              · simp at h
              · rename_i nb hjb
                split at h
                · split at h
                  · rename_i hsm huo
                    refine ⟨orig, n, nb, ?_, horig, by omega, hpn, hcv, hjb, hsm, huo, ?_⟩
                    · rw [heq]
                      congr
                      by_contra hne
                      exact ht (by simpa using hne)
                    · unfold process_xref
                      rw [heq]
                      simp only [if_neg ht]
                      rw [horig]
                      simp only [if_neg hth]
                      rw [hpn]
                      simp only [if_neg hcv]
                      rw [hjb]
                      have hred : (if ois = false ∨ nb.length < orig.length then
                          (if x.updateOk = true then ((true : Bool), some nb)
                            else (false, none))
                        else (false, none)) = ((true : Bool), some nb) := by
                        rw [if_pos hsm, if_pos huo]
                      exact hred
                  · simp at h
                · simp at h

/-- An xref whose original stream is below the size threshold is skipped
by the loop body under either policy flag. -/
theorem process_xref_below_threshold (mb : Nat) (ois : Bool) (x : ImgXref)
    (orig : List Nat) (horig : x.origStream = some orig)
    (hth : orig.length < mb) :
    process_xref mb ois x = (false, none) := by
  unfold process_xref
  rcases hsub : x.subtype with _ | t
  · rfl
  · by_cases ht : t ≠ "/Image"
    · simp only [if_pos ht]
    · simp only [if_neg ht]
      rw [horig]
      simp only [if_pos hth]

/-- With the smaller-than-original policy disabled, an xref on which every
step succeeds is replaced regardless of the new stream's size. -/
theorem process_xref_no_policy (mb : Nat) (x : ImgXref) (orig nb : List Nat)
    (n : Nat) (hst : x.subtype = some "/Image") (horig : x.origStream = some orig)
    (hth : ¬ orig.length < mb) (hpn : x.pixN = some n)
    (hcv : ¬(5 ≤ n ∧ x.rgbOk = false)) (hjb : x.jpegBytes = some nb)
    (huo : x.updateOk = true) :
    process_xref mb false x = (true, some nb) := by
  unfold process_xref
  rw [hst]
  simp only [if_neg (show ¬("/Image" ≠ "/Image") by simp)]
  rw [horig]
  simp only [if_neg hth]
  rw [hpn]
  simp only [if_neg hcv]
  rw [hjb]
  have hred : (if false = false ∨ nb.length < orig.length then
      (if x.updateOk = true then ((true : Bool), some nb) else (false, none))
    else (false, none)) = ((true : Bool), some nb) := by
    rw [if_pos (Or.inl rfl), if_pos huo]
  exact hred

/-- C4: with `only_if_smaller` enabled a stream is replaced only when the
re-encoded stream is strictly smaller than the original; an image whose
original stream is below `min_kb * 1024` bytes is never touched under
either flag value; with the flag disabled a successfully re-encoded (and
successfully written) stream at or above the threshold is replaced
regardless of its size. -/
theorem recompress_images_replacement_policy (quality min_kb : Nat)
    (xrefs : List ImgXref) :
    ((recompress_images_in_doc quality min_kb true xrefs).2
        = xrefs.map (xref_final (min_kb * 1024) true))
  ∧ ((recompress_images_in_doc quality min_kb false xrefs).2
        = xrefs.map (xref_final (min_kb * 1024) false))
  ∧ (∀ x : ImgXref, ∀ orig, x.origStream = some orig →
      ((process_xref (min_kb * 1024) true x).1 = true →
          ∃ nb, x.jpegBytes = some nb ∧ nb.length < orig.length
            ∧ min_kb * 1024 ≤ orig.length
            ∧ xref_final (min_kb * 1024) true x = some nb)
      ∧ (orig.length < min_kb * 1024 → ∀ ois : Bool,
          (process_xref (min_kb * 1024) ois x).1 = false
          ∧ xref_final (min_kb * 1024) ois x = x.origStream)
      ∧ (∀ nb n, x.subtype = some "/Image" → min_kb * 1024 ≤ orig.length →
          x.pixN = some n → ¬(5 ≤ n ∧ x.rgbOk = false) → x.jpegBytes = some nb →
          x.updateOk = true →
          (process_xref (min_kb * 1024) false x).1 = true
          ∧ xref_final (min_kb * 1024) false x = some nb)) := by
  refine ⟨by rw [recompress_images_in_doc_eq],
    by rw [recompress_images_in_doc_eq], ?_⟩
  intro x orig horig
  refine ⟨?_, ?_, ?_⟩
  · intro hrep
    obtain ⟨orig', n, nb, _, horig', hth, _, _, hjb, hsm, _, heq⟩ :=
      process_xref_replaced_inv (min_kb * 1024) true x hrep
    have horigeq : orig = orig' := by
      rw [horig] at horig'
      exact Option.some.inj horig'
    subst horigeq
    rcases hsm with hsm | hsm
    · cases hsm
    · refine ⟨nb, hjb, hsm, hth, ?_⟩
      unfold xref_final
      rw [heq]
      simp
  · intro hth ois
    have h := process_xref_below_threshold (min_kb * 1024) ois x orig horig hth
    refine ⟨by rw [h], ?_⟩
    unfold xref_final
    rw [h]
    simp
  · intro nb n hst hthge hpn hcv hjb huo
    have h := process_xref_no_policy (min_kb * 1024) x orig nb n hst horig
      (by omega) hpn hcv hjb huo
    refine ⟨by rw [h], ?_⟩
    unfold xref_final
    rw [h]
    simp

/-- C4 witness: a tiny stream (1 byte, threshold 1 KB) is left untouched:
the loop body does not replace it and its stream is unchanged. -/
theorem recompress_images_replacement_policy_witness :
    (process_xref (1 * 1024) true
        ⟨some "/Image", some [7], some 3, true, some [1, 2], true⟩).1 = false
    ∧ xref_final (1 * 1024) true
        ⟨some "/Image", some [7], some 3, true, some [1, 2], true⟩
      = some [7] :=
  ((recompress_images_replacement_policy 70 1
      [⟨some "/Image", some [7], some 3, true, some [1, 2], true⟩]).2.2
    ⟨some "/Image", some [7], some 3, true, some [1, 2], true⟩ [7] rfl).2.1
    (by decide) true

/-- The loop body either skips an xref with `(false, none)` or replaces it
with `(true, some new_bytes)`. -/
theorem process_xref_cases (mb : Nat) (ois : Bool) (x : ImgXref) :
    process_xref mb ois x = (false, none)
    ∨ ∃ nb, process_xref mb ois x = (true, some nb) := by
  unfold process_xref
  split
  · exact Or.inl rfl
  · split
    · exact Or.inl rfl
    · split
      · exact Or.inl rfl
      · split
        · exact Or.inl rfl
        · split
          · exact Or.inl rfl
          · split
            · exact Or.inl rfl
            · split
              · exact Or.inl rfl
              · split
                · split
                  · exact Or.inr ⟨_, rfl⟩
                  · exact Or.inl rfl
                · exact Or.inl rfl

/-- A failing step always leaves the loop body with `(false, none)`. -/
theorem process_xref_of_step_fails (mb : Nat) (ois : Bool) (x : ImgXref)
    (hfail : image_step_fails x) :
    process_xref mb ois x = (false, none) := by
  rcases process_xref_cases mb ois x with h | ⟨nb0, h⟩
  · exact h
  · exfalso
    have hrep : (process_xref mb ois x).1 = true := by rw [h]
    obtain ⟨orig, n, nb, hst, horig, _, hpn, hcv, hjb, _, huo, _⟩ :=
      process_xref_replaced_inv mb ois x hrep
    rcases hfail with hf | hf | hf | ⟨n', hpn', h5, hrg⟩ | hf | hf
    · rw [hst] at hf; cases hf
    · rw [horig] at hf; cases hf
    · rw [hpn] at hf; cases hf
    · rw [hpn] at hpn'
      exact hcv ⟨Option.some.inj hpn' ▸ h5, hrg⟩
    · rw [hjb] at hf; cases hf
    · rw [huo] at hf; cases hf

/-- C5: a per-image failure at any step is caught locally: the loop body
reports the image as not replaced, its stream stays the original bytes,
the surrounding images are processed exactly as they would be on their
own, and the function (total by construction: every exception is a modelled
branch) returns the count of images whose streams were actually replaced. -/
theorem recompress_per_image_failure_isolated (quality min_kb : Nat) (ois : Bool)
    (pre post : List ImgXref) (x : ImgXref)
    (hfail : image_step_fails x) :
    (process_xref (min_kb * 1024) ois x).1 = false
  ∧ xref_final (min_kb * 1024) ois x = x.origStream
  ∧ recompress_images_in_doc quality min_kb ois (pre ++ x :: post)
      = ((recompress_images_in_doc quality min_kb ois pre).1
           + (recompress_images_in_doc quality min_kb ois post).1,
         (recompress_images_in_doc quality min_kb ois pre).2
           ++ x.origStream :: (recompress_images_in_doc quality min_kb ois post).2)
  ∧ (∀ xs : List ImgXref, (recompress_images_in_doc quality min_kb ois xs).1
      = xs.countP (fun y => (process_xref (min_kb * 1024) ois y).1)) := by
  have hproc := process_xref_of_step_fails (min_kb * 1024) ois x hfail
  have hfalse : (process_xref (min_kb * 1024) ois x).1 = false := by rw [hproc]
  have hfin : xref_final (min_kb * 1024) ois x = x.origStream := by
    unfold xref_final
    rw [hproc]
    simp
  refine ⟨hfalse, hfin, ?_, ?_⟩
  · rw [recompress_images_in_doc_eq, recompress_images_in_doc_eq,
      recompress_images_in_doc_eq]
    refine Prod.ext ?_ ?_
    · show (pre ++ x :: post).countP (fun y => (process_xref (min_kb * 1024) ois y).1)
        = (pre.countP (fun y => (process_xref (min_kb * 1024) ois y).1))
          + (post.countP (fun y => (process_xref (min_kb * 1024) ois y).1))
      rw [List.countP_append, List.countP_cons]
      have hzero : (if (fun y => (process_xref (min_kb * 1024) ois y).1) x then 1 else 0)
          = 0 := by
        show (if (process_xref (min_kb * 1024) ois x).1 = true then 1 else 0) = 0
        rw [hfalse]
        rfl
      rw [hzero]
      omega
    · show (pre ++ x :: post).map (xref_final (min_kb * 1024) ois)
        = pre.map (xref_final (min_kb * 1024) ois)
          ++ x.origStream :: post.map (xref_final (min_kb * 1024) ois)
      rw [List.map_append, List.map_cons, hfin]
  · intro xs
    rw [recompress_images_in_doc_eq]

/-- C5 witness: an xref whose JPEG encoding fails (between two processable
neighbours is unnecessary — empty context suffices) is not replaced and
keeps its original stream. -/
theorem recompress_per_image_failure_isolated_witness :
    (process_xref (0 * 1024) true
        ⟨some "/Image", some [1, 2, 3], some 3, true, none, true⟩).1 = false
    ∧ xref_final (0 * 1024) true
        ⟨some "/Image", some [1, 2, 3], some 3, true, none, true⟩
      = some [1, 2, 3] :=
  have h := recompress_per_image_failure_isolated 70 0 true [] []
    ⟨some "/Image", some [1, 2, 3], some 3, true, none, true⟩
    (Or.inr (Or.inr (Or.inr (Or.inr (Or.inl rfl)))))
  ⟨h.1, h.2.1⟩

theorem char_toNat_ofNat_valid (n : Nat) (h : n.isValidChar) :
    (Char.ofNat n).toNat = n := by
  unfold Char.ofNat
  rw [dif_pos h]
  rfl

theorem char_toLower_cases (c t : Char) (h : c.toLower = t) :
    c = t ∨ (65 ≤ c.toNat ∧ c.toNat ≤ 90 ∧ c.toNat + 32 = t.toNat) := by
  have h' : (if c.toNat ≥ 65 ∧ c.toNat ≤ 90 then Char.ofNat (c.toNat + 32) else c) = t := h
  by_cases hc : c.toNat ≥ 65 ∧ c.toNat ≤ 90
  · right
    rw [if_pos hc] at h'
    have hvalid : (c.toNat + 32).isValidChar := by
      left
      omega
    have htn : (Char.ofNat (c.toNat + 32)).toNat = c.toNat + 32 :=
      char_toNat_ofNat_valid _ hvalid
    exact ⟨hc.1, hc.2, by rw [← htn, h']⟩
  · left
    rw [if_neg hc] at h'
    exact h'

theorem py_lower_singleton (r : String) (t : Char)
    (h : py_lower r = String.mk [t]) : ∃ c, r = String.mk [c] ∧ c.toLower = t := by
  have hdata : r.toList.map Char.toLower = [t] := congrArg String.data h
  cases hr : r.toList with
  | nil => rw [hr] at hdata; cases hdata
  | cons c cs =>
    rw [hr, List.map_cons] at hdata
    have h1 : c.toLower = t := (List.cons.injEq .. ▸ hdata).1
    have h2 : cs.map Char.toLower = [] := (List.cons.injEq .. ▸ hdata).2
    have hcs : cs = [] := List.map_eq_nil_iff.mp h2
    subst hcs
    exact ⟨c, string_toList_inj (by rw [hr]; rfl), h1⟩

/-- C6: any response whose stripped, lowercased form is neither `"s"` nor
`"y"` makes the run exit with status 0 before the output directory is
created and before any merge job runs; conversely execution proceeds
exactly for the responses whose stripped form is `s`, `S`, `y` or `Y`. -/
theorem confirmation_gate (resp : String) :
    (¬(py_lower (py_strip resp) = "s" ∨ py_lower (py_strip resp) = "y") →
        post_plan_run resp
          = { exitCode := some 0, outDirCreated := false, mergeJobsRun := false })
  ∧ (((post_plan_run resp).outDirCreated = true
        ∨ (post_plan_run resp).mergeJobsRun = true) →
        (py_strip resp = "s" ∨ py_strip resp = "S"
          ∨ py_strip resp = "y" ∨ py_strip resp = "Y"))
  ∧ ((py_strip resp = "s" ∨ py_strip resp = "S"
        ∨ py_strip resp = "y" ∨ py_strip resp = "Y") →
        post_plan_run resp
          = { exitCode := none, outDirCreated := true, mergeJobsRun := true }) := by
  refine ⟨?_, ?_, ?_⟩
  · intro h
    unfold post_plan_run
    rw [if_pos h]
  · intro hrun
    have hcond : py_lower (py_strip resp) = "s" ∨ py_lower (py_strip resp) = "y" := by
      by_contra hn
      unfold post_plan_run at hrun
      rw [if_pos hn] at hrun
      rcases hrun with h | h <;> cases h
    rcases hcond with hc | hc
    · obtain ⟨c, hr, hcl⟩ := py_lower_singleton (py_strip resp) 's' hc
      rcases char_toLower_cases c 's' hcl with h1 | ⟨_, _, h3⟩
      · subst h1
        exact Or.inl (by rw [hr])
      · have hs : ('s' : Char).toNat = 115 := rfl
        have hSn : ('S' : Char).toNat = 83 := rfl
        have hcS : c = 'S' := char_toNat_inj (by omega)
        subst hcS
        exact Or.inr (Or.inl (by rw [hr]))
    · obtain ⟨c, hr, hcl⟩ := py_lower_singleton (py_strip resp) 'y' hc
      rcases char_toLower_cases c 'y' hcl with h1 | ⟨_, _, h3⟩
      · subst h1
        exact Or.inr (Or.inr (Or.inl (by rw [hr])))
      · have hy : ('y' : Char).toNat = 121 := rfl
        have hYn : ('Y' : Char).toNat = 89 := rfl
        have hcY : c = 'Y' := char_toNat_inj (by omega)
        subst hcY
        exact Or.inr (Or.inr (Or.inr (by rw [hr])))
  · intro h4
    have hcond : py_lower (py_strip resp) = "s" ∨ py_lower (py_strip resp) = "y" := by
      rcases h4 with h | h | h | h <;> rw [h]
      · exact Or.inl (by decide)
      · exact Or.inl (by decide)
      · exact Or.inr (by decide)
      · exact Or.inr (by decide)
    unfold post_plan_run
    rw [if_neg (not_not_intro hcond)]

/-- C6 witness: the declining response `" n "` exits with status 0 and
creates nothing; the affirmative `"Y"` proceeds. -/
theorem confirmation_gate_witness :
    post_plan_run " n "
      = { exitCode := some 0, outDirCreated := false, mergeJobsRun := false }
  ∧ post_plan_run "Y"
      = { exitCode := none, outDirCreated := true, mergeJobsRun := true } :=
  ⟨(confirmation_gate " n ").1 (by decide),
   (confirmation_gate "Y").2.2 (by decide)⟩

/-- C7: `worker_unify` is a total function of its inputs (no exception
escapes: the embedding returns a plain triple for every unify outcome),
always returns the feature key and the exact source count, reports "OK"
exactly on success, and converts an exception with message `e` into the
status `"ERROR: " ++ e`. -/
theorem worker_unify_never_raises (unify : String → List String → Except String Unit)
    (cp : PyCharProps) (out_dir feat : String) (paths : List String) :
    ((worker_unify unify cp out_dir feat paths).1 = feat)
  ∧ ((worker_unify unify cp out_dir feat paths).2.1 = paths.length)
  ∧ ((worker_unify unify cp out_dir feat paths).2.2 = "OK"
      ↔ unify (worker_dest_path cp out_dir feat) paths = .ok ())
  ∧ (∀ e, unify (worker_dest_path cp out_dir feat) paths = .error e →
      (worker_unify unify cp out_dir feat paths).2.2 = "ERROR: " ++ e) := by
  rcases h : unify (worker_dest_path cp out_dir feat) paths with e | u
  · have hw : worker_unify unify cp out_dir feat paths
        = (feat, paths.length, "ERROR: " ++ e) := by
      unfold worker_unify
      rw [h]
    rw [hw]
    refine ⟨rfl, rfl, ?_, ?_⟩
    · constructor
      · intro hok
        exfalso
        have hbad : ("ERROR: " ++ e).toList = "OK".toList := congrArg String.data hok
        simp [String.toList] at hbad
      · intro hok
        exact Except.noConfusion hok
    · intro e' he
      have he' : e = e' := Except.error.inj he
      rw [he']
  · obtain ⟨⟩ := u
    have hw : worker_unify unify cp out_dir feat paths
        = (feat, paths.length, "OK") := by
      unfold worker_unify
      rw [h]
    rw [hw]
    refine ⟨rfl, rfl, ⟨fun _ => rfl, fun _ => rfl⟩, ?_⟩
    intro e he
    exact Except.noConfusion he

/-- C7 witness: a unify oracle that raises `"boom"` yields the JobResult
`(feat, 2, "ERROR: boom")`; the count equals the number of input paths. -/
theorem worker_unify_never_raises_witness :
    ((worker_unify (fun _ _ => Except.error "boom") asciiProps "/out" "g!"
        ["a", "b"]).2.2 = "ERROR: " ++ "boom")
  ∧ ((worker_unify (fun _ _ => Except.error "boom") asciiProps "/out" "g!"
        ["a", "b"]).2.1 = 2) :=
  ⟨(worker_unify_never_raises (fun _ _ => Except.error "boom") asciiProps "/out" "g!"
      ["a", "b"]).2.2.2 "boom" rfl,
   (worker_unify_never_raises (fun _ _ => Except.error "boom") asciiProps "/out" "g!"
      ["a", "b"]).2.1⟩

/-- C8 exhibit: in serial mode the JobResult status is ignored — a group
whose worker returned an error status is still reported with the success
tag, unlike in parallel mode, which reports by status. -/
theorem serial_mode_ignores_job_status :
    serial_report_tag ("g", 1, "ERROR: boom") = "OK"
  ∧ parallel_report_tag ("g", 1, "ERROR: boom") = "WARN"
  ∧ (∀ result : String × Nat × String, serial_report_tag result = "OK")
  ∧ (∀ result : String × Nat × String,
      (parallel_report_tag result = "OK" ↔ result.2.2 = "OK")) := by
  refine ⟨rfl, by decide, fun _ => rfl, ?_⟩
  intro r
  unfold parallel_report_tag
  by_cases h : r.2.2 = "OK"
  · rw [if_neg (not_not_intro h)]
    exact ⟨fun _ => h, fun _ => rfl⟩
  · rw [if_pos h]
    exact ⟨fun hw => absurd hw (by decide), fun hk => absurd hk h⟩
